import Mathlib

/-!
Shallow embedding of the Quintet Rooting core (quintet_rooting.py).

Trees are modelled per the spec's abstract Tree interface (dendropy is an
external collaborator): a fully resolved rooted tree is a leaf-labeled
binary tree, and an unrooted fully resolved tree is stored, as dendropy
does under force-unrooted, as a seed node with three child subtrees.
Topological comparison of rooted trees is by clade sets (the symmetric
difference count used by dendropy treecompare on rooted trees).
-/

/-- Fully resolved (binary) rooted tree with natural-number taxon labels. -/
inductive RTree where
  | leaf (a : Nat) : RTree
  | node (l r : RTree) : RTree
deriving DecidableEq, Repr

instance : Inhabited RTree := ⟨RTree.leaf 0⟩

/-- Leaf labels of a rooted tree, left to right. -/
def RTree.leafList : RTree → List Nat
  | .leaf a => [a]
  | .node l r => l.leafList ++ r.leafList

/-- Leaf-label set of a rooted tree. -/
def RTree.leafSet (t : RTree) : Finset Nat := t.leafList.toFinset

/-- Clade set of a rooted tree: leaf sets of all subtrees (the rooted
bipartition encoding dendropy compares on rooted trees). -/
def RTree.clades : RTree → Finset (Finset Nat)
  | .leaf a => {({a} : Finset Nat)}
  | .node l r => insert (l.leafSet ∪ r.leafSet) (l.clades ∪ r.clades)

/-- Symmetric topological difference between two rooted trees: count of
clades of one that are not clades of the other, in both directions. -/
def symdiff (t1 t2 : RTree) : Nat :=
  (t1.clades \ t2.clades).card + (t2.clades \ t1.clades).card

/-- Unrooted fully resolved tree, represented as dendropy stores it under
force-unrooted rooting: a seed node with three child subtrees. -/
structure UTree where
  a : RTree
  b : RTree
  c : RTree
deriving DecidableEq, Repr

/-- Leaf labels of the unrooted tree. -/
def UTree.leafList (u : UTree) : List Nat :=
  u.a.leafList ++ u.b.leafList ++ u.c.leafList

/-- Positions (paths from the root) of all nodes of a rooted tree; each
position identifies the edge directly above that node. -/
def RTree.positions : RTree → List (List Bool)
  | .leaf _ => [[]]
  | .node l r =>
      [] :: (l.positions.map (List.cons false) ++ r.positions.map (List.cons true))

/-- Subtree of a rooted tree at a position (the part below that edge). -/
def RTree.subtreeAt : RTree → List Bool → RTree
  | t, [] => t
  | .leaf a, _ :: _ => .leaf a
  | .node l _, false :: p => l.subtreeAt p
  | .node _ r, true :: p => r.subtreeAt p

/-- Reroot helper: walking down path p inside t, with rest the rerooted tree
accumulated for everything outside t; produces the tree rooted at the edge
above the node of t at position p. -/
def rerootAux : RTree → List Bool → RTree → RTree
  | t, [], rest => .node t rest
  | .leaf a, _ :: _, rest => .node (.leaf a) rest
  | .node l r, false :: p, rest => rerootAux l p (.node r rest)
  | .node l r, true :: p, rest => rerootAux r p (.node l rest)

/-- Edges of the unrooted tree: component 0, 1 or 2 of the seed node, plus a
position within that component. There are 2n-3 of them for n taxa. -/
def UTree.edges (u : UTree) : List (Nat × List Bool) :=
  u.a.positions.map (fun p => (0, p)) ++
  (u.b.positions.map (fun p => (1, p)) ++ u.c.positions.map (fun p => (2, p)))

/-- Rooted tree obtained by placing the root on a given edge of the
unrooted tree (the reroot_at_edge operation of the external tree library). -/
def UTree.reroot (u : UTree) : Nat × List Bool → RTree
  | (0, p) => rerootAux u.a p (.node u.b u.c)
  | (1, p) => rerootAux u.b p (.node u.c u.a)
  | (_, p) => rerootAux u.c p (.node u.a u.b)

/-- Duplicate-removal scan of get_all_rooted_trees: the Python loop
compares each later candidate against candidate 0 and pops the first one
whose symmetric difference with it is 0, then breaks. -/
def removeFirstDup (c0 : RTree) : List RTree → List RTree
  | [] => []
  | x :: xs => if symdiff c0 x = 0 then xs else x :: removeFirstDup c0 xs

/-- Duplicate-removal pass over the generated candidate list. -/
def removeDuplicatesPass : List RTree → List RTree
  | [] => []
  | c0 :: rest => c0 :: removeFirstDup c0 rest

/-- Model of get_all_rooted_trees: reroot the unrooted tree at every edge,
collect the candidates, then run the single-duplicate-removal pass. -/
def get_all_rooted_trees (u : UTree) : List RTree :=
  removeDuplicatesPass (u.edges.map u.reroot)

/-! Basic facts about leaves, positions and clades. -/

theorem RTree.leafList_ne_nil (t : RTree) : t.leafList ≠ [] := by
  cases t with
  | leaf a => simp [RTree.leafList]
  | node l r => simp [RTree.leafList, l.leafList_ne_nil]

theorem RTree.leafSet_nonempty (t : RTree) : t.leafSet.Nonempty := by
  have h := t.leafList_ne_nil
  cases ht : t.leafList with
  | nil => exact absurd ht h
  | cons x xs =>
      exact ⟨x, by simp [RTree.leafSet, ht]⟩

theorem RTree.leafSet_node (l r : RTree) :
    (RTree.node l r).leafSet = l.leafSet ∪ r.leafSet := by
  simp [RTree.leafSet, RTree.leafList, List.toFinset_append]

theorem RTree.positions_length (t : RTree) :
    t.positions.length + 1 = 2 * t.leafList.length := by
  induction t with
  | leaf a => simp [RTree.positions, RTree.leafList]
  | node l r ihl ihr =>
      simp only [RTree.positions, RTree.leafList, List.length_cons,
        List.length_append, List.length_map]
      omega

theorem RTree.positions_ne_nil (t : RTree) : t.positions ≠ [] := by
  cases t with
  | leaf a => simp [RTree.positions]
  | node l r => simp [RTree.positions]

theorem RTree.mem_positions_node {l r : RTree} {p : List Bool} :
    p ∈ (RTree.node l r).positions ↔
      p = [] ∨ (∃ q ∈ l.positions, p = false :: q) ∨
        (∃ q ∈ r.positions, p = true :: q) := by
  simp only [RTree.positions, List.mem_cons, List.mem_append, List.mem_map]
  constructor
  · rintro (h | ⟨q, hq, rfl⟩ | ⟨q, hq, rfl⟩)
    · exact Or.inl h
    · exact Or.inr (Or.inl ⟨q, hq, rfl⟩)
    · exact Or.inr (Or.inr ⟨q, hq, rfl⟩)
  · rintro (h | ⟨q, hq, rfl⟩ | ⟨q, hq, rfl⟩)
    · exact Or.inl h
    · exact Or.inr (Or.inl ⟨q, hq, rfl⟩)
    · exact Or.inr (Or.inr ⟨q, hq, rfl⟩)

theorem RTree.mem_clades_iff_node {l r : RTree} {X : Finset Nat} :
    X ∈ (RTree.node l r).clades ↔
      X = l.leafSet ∪ r.leafSet ∨ X ∈ l.clades ∨ X ∈ r.clades := by
  simp [RTree.clades]

theorem RTree.mem_clades_subset {t : RTree} {X : Finset Nat}
    (hX : X ∈ t.clades) : X ⊆ t.leafSet ∧ X.Nonempty := by
  induction t with
  | leaf a =>
      simp only [RTree.clades, Finset.mem_singleton] at hX
      subst hX
      exact ⟨by simp [RTree.leafSet, RTree.leafList], by simp⟩
  | node l r ihl ihr =>
      rw [RTree.mem_clades_iff_node] at hX
      rw [RTree.leafSet_node]
      rcases hX with rfl | h | h
      · exact ⟨subset_rfl, (l.leafSet_nonempty).mono Finset.subset_union_left⟩
      · exact ⟨(ihl h).1.trans Finset.subset_union_left, (ihl h).2⟩
      · exact ⟨(ihr h).1.trans Finset.subset_union_right, (ihr h).2⟩

theorem RTree.leafSet_mem_clades (t : RTree) : t.leafSet ∈ t.clades := by
  cases t with
  | leaf a => simp [RTree.clades, RTree.leafSet, RTree.leafList]
  | node l r =>
      rw [RTree.mem_clades_iff_node, RTree.leafSet_node]
      exact Or.inl rfl

theorem RTree.nodup_node {l r : RTree} (h : (RTree.node l r).leafList.Nodup) :
    l.leafList.Nodup ∧ r.leafList.Nodup ∧ Disjoint l.leafSet r.leafSet := by
  simp only [RTree.leafList, List.nodup_append] at h
  exact ⟨h.1, h.2.1, List.disjoint_toFinset_iff_disjoint.2 h.2.2⟩

/-! Subtrees at positions. -/

theorem RTree.subtreeAt_leafList_infix (t : RTree) (p : List Bool) :
    (t.subtreeAt p).leafList.IsInfix t.leafList := by
  induction t generalizing p with
  | leaf a =>
      cases p with
      | nil => exact List.infix_rfl
      | cons b q => exact List.infix_rfl
  | node l r ihl ihr =>
      cases p with
      | nil => exact List.infix_rfl
      | cons b q =>
          cases b with
          | false =>
              refine (ihl q).trans ?_
              exact ⟨[], r.leafList, by simp [RTree.leafList]⟩
          | true =>
              refine (ihr q).trans ?_
              exact ⟨l.leafList, [], by simp [RTree.leafList]⟩

theorem RTree.subtreeAt_leafSet_subset (t : RTree) (p : List Bool) :
    (t.subtreeAt p).leafSet ⊆ t.leafSet := by
  intro x hx
  simp only [RTree.leafSet, List.mem_toFinset] at hx ⊢
  exact (t.subtreeAt_leafList_infix p).subset hx

theorem RTree.subtreeAt_nodup {t : RTree} (h : t.leafList.Nodup) (p : List Bool) :
    (t.subtreeAt p).leafList.Nodup :=
  (t.subtreeAt_leafList_infix p).sublist.nodup h

theorem RTree.subtreeAt_leafSet_injOn {t : RTree} (hnd : t.leafList.Nodup)
    {p q : List Bool} (hp : p ∈ t.positions) (hq : q ∈ t.positions)
    (hne : p ≠ q) : (t.subtreeAt p).leafSet ≠ (t.subtreeAt q).leafSet := by
  induction t generalizing p q with
  | leaf a =>
      simp only [RTree.positions, List.mem_singleton] at hp hq
      exact absurd (hp.trans hq.symm) hne
  | node l r ihl ihr =>
      obtain ⟨hndl, hndr, hdisj⟩ := RTree.nodup_node hnd
      have hstrictl : ∀ q' ∈ l.positions,
          (RTree.node l r).leafSet ≠ ((RTree.node l r).subtreeAt (false :: q')).leafSet := by
        intro q' _ heq
        have hsub : ((RTree.node l r).subtreeAt (false :: q')).leafSet ⊆ l.leafSet := by
          show (l.subtreeAt q').leafSet ⊆ l.leafSet
          exact l.subtreeAt_leafSet_subset q'
        rw [← heq, RTree.leafSet_node] at hsub
        obtain ⟨x, hx⟩ := r.leafSet_nonempty
        have hxl : x ∈ l.leafSet := hsub (Finset.mem_union_right _ hx)
        exact (Finset.disjoint_left.1 hdisj hxl) hx
      have hstrictr : ∀ q' ∈ r.positions,
          (RTree.node l r).leafSet ≠ ((RTree.node l r).subtreeAt (true :: q')).leafSet := by
        intro q' _ heq
        have hsub : ((RTree.node l r).subtreeAt (true :: q')).leafSet ⊆ r.leafSet := by
          show (r.subtreeAt q').leafSet ⊆ r.leafSet
          exact r.subtreeAt_leafSet_subset q'
        rw [← heq, RTree.leafSet_node] at hsub
        obtain ⟨x, hx⟩ := l.leafSet_nonempty
        have hxr : x ∈ r.leafSet := hsub (Finset.mem_union_left _ hx)
        exact (Finset.disjoint_left.1 hdisj hx) hxr
      have hcross : ∀ p' ∈ l.positions, ∀ q' ∈ r.positions,
          ((RTree.node l r).subtreeAt (false :: p')).leafSet ≠
            ((RTree.node l r).subtreeAt (true :: q')).leafSet := by
        intro p' _ q' _ heq
        have h1 : (l.subtreeAt p').leafSet ⊆ l.leafSet := l.subtreeAt_leafSet_subset p'
        have h2 : (r.subtreeAt q').leafSet ⊆ r.leafSet := r.subtreeAt_leafSet_subset q'
        obtain ⟨x, hx⟩ := (l.subtreeAt p').leafSet_nonempty
        have hx2 : x ∈ (r.subtreeAt q').leafSet := by
          have : (l.subtreeAt p').leafSet = (r.subtreeAt q').leafSet := heq
          exact this ▸ hx
        exact (Finset.disjoint_left.1 hdisj (h1 hx)) (h2 hx2)
      rw [RTree.mem_positions_node] at hp hq
      rcases hp with rfl | ⟨p', hp', rfl⟩ | ⟨p', hp', rfl⟩ <;>
        rcases hq with rfl | ⟨q', hq', rfl⟩ | ⟨q', hq', rfl⟩
      · exact absurd rfl hne
      · exact hstrictl q' hq'
      · exact hstrictr q' hq'
      · exact fun h => hstrictl p' hp' h.symm
      · have hne' : p' ≠ q' := by
          intro h; exact hne (by rw [h])
        exact ihl hndl hp' hq' hne'
      · exact hcross p' hp' q' hq'
      · exact fun h => hstrictr p' hp' h.symm
      · exact fun h => hcross q' hq' p' hp' h.symm
      · have hne' : p' ≠ q' := by
          intro h; exact hne (by rw [h])
        exact ihr hndr hp' hq' hne'

/-! Rerooting lemmas. -/

theorem rerootAux_leafList_perm (t : RTree) (p : List Bool) (rest : RTree) :
    (rerootAux t p rest).leafList.Perm (t.leafList ++ rest.leafList) := by
  induction t generalizing p rest with
  | leaf a =>
      cases p with
      | nil => simp [rerootAux, RTree.leafList]
      | cons b q => simp [rerootAux, RTree.leafList]
  | node l r ihl ihr =>
      cases p with
      | nil => simp [rerootAux, RTree.leafList]
      | cons b q =>
          cases b with
          | false =>
              refine (ihl q (.node r rest)).trans ?_
              simp only [RTree.leafList, List.append_assoc]
              exact List.Perm.refl _
          | true =>
              refine (ihr q (.node l rest)).trans ?_
              simp only [RTree.leafList, List.append_assoc]
              exact List.perm_append_comm_assoc _ _ _

theorem rerootAux_eq_node (t : RTree) {p : List Bool} (hp : p ∈ t.positions)
    (rest : RTree) : ∃ s : RTree, rerootAux t p rest = .node (t.subtreeAt p) s := by
  induction t generalizing p rest with
  | leaf a =>
      simp only [RTree.positions, List.mem_singleton] at hp
      subst hp
      exact ⟨rest, rfl⟩
  | node l r ihl ihr =>
      rw [RTree.mem_positions_node] at hp
      rcases hp with rfl | ⟨q, hq, rfl⟩ | ⟨q, hq, rfl⟩
      · exact ⟨rest, rfl⟩
      · exact ihl hq (.node r rest)
      · exact ihr hq (.node l rest)

/-! Components and edge sides of the unrooted tree. -/

/-- Component subtree of the seed node selected by an edge tag. -/
def UTree.comp (u : UTree) : Nat → RTree
  | 0 => u.a
  | 1 => u.b
  | _ => u.c

/-- Rest of the unrooted tree outside a component, as rerooting joins it. -/
def UTree.restOf (u : UTree) : Nat → RTree
  | 0 => .node u.b u.c
  | 1 => .node u.c u.a
  | _ => .node u.a u.b

/-- Taxon set of the whole unrooted tree. -/
def UTree.fullSet (u : UTree) : Finset Nat := u.leafList.toFinset

/-- Leaf set on the far side of an edge: the taxa below it. -/
def UTree.dSet (u : UTree) (e : Nat × List Bool) : Finset Nat :=
  ((u.comp e.1).subtreeAt e.2).leafSet

theorem UTree.mem_edges {u : UTree} {e : Nat × List Bool} :
    e ∈ u.edges ↔
      (e.1 = 0 ∧ e.2 ∈ u.a.positions) ∨ (e.1 = 1 ∧ e.2 ∈ u.b.positions) ∨
        (e.1 = 2 ∧ e.2 ∈ u.c.positions) := by
  obtain ⟨k, p⟩ := e
  simp only [UTree.edges, List.mem_append, List.mem_map, Prod.mk.injEq]
  constructor
  · rintro (⟨q, hq, hk, rfl⟩ | ⟨q, hq, hk, rfl⟩ | ⟨q, hq, hk, rfl⟩) <;>
      simp_all
  · rintro (⟨rfl, hp⟩ | ⟨rfl, hp⟩ | ⟨rfl, hp⟩)
    · exact Or.inl ⟨p, hp, rfl, rfl⟩
    · exact Or.inr (Or.inl ⟨p, hp, rfl, rfl⟩)
    · exact Or.inr (Or.inr ⟨p, hp, rfl, rfl⟩)

theorem UTree.edge_comp {u : UTree} {e : Nat × List Bool} (he : e ∈ u.edges) :
    e.1 < 3 ∧ e.2 ∈ (u.comp e.1).positions := by
  rcases UTree.mem_edges.1 he with ⟨h, hp⟩ | ⟨h, hp⟩ | ⟨h, hp⟩ <;>
    rw [h] <;> exact ⟨by omega, hp⟩

theorem UTree.reroot_eq_rerootAux {u : UTree} {e : Nat × List Bool}
    (he : e ∈ u.edges) :
    u.reroot e = rerootAux (u.comp e.1) e.2 (u.restOf e.1) := by
  obtain ⟨k, p⟩ := e
  rcases UTree.mem_edges.1 he with ⟨h, _⟩ | ⟨h, _⟩ | ⟨h, _⟩ <;>
    subst h <;> rfl

theorem UTree.comp_append_restOf_perm (u : UTree) {k : Nat} (hk : k < 3) :
    ((u.comp k).leafList ++ (u.restOf k).leafList).Perm u.leafList := by
  interval_cases k
  · simp only [UTree.comp, UTree.restOf, UTree.leafList, RTree.leafList,
      List.append_assoc]
    exact List.Perm.refl _
  · simp only [UTree.comp, UTree.restOf, UTree.leafList, RTree.leafList,
      List.append_assoc]
    refine (List.Perm.append_left u.b.leafList List.perm_append_comm).trans ?_
    exact List.perm_append_comm_assoc _ _ _
  · simp only [UTree.comp, UTree.restOf, UTree.leafList, RTree.leafList,
      List.append_assoc]
    refine List.perm_append_comm.trans ?_
    rw [List.append_assoc]

theorem UTree.reroot_leafList_perm {u : UTree} {e : Nat × List Bool}
    (he : e ∈ u.edges) : (u.reroot e).leafList.Perm u.leafList := by
  rw [UTree.reroot_eq_rerootAux he]
  exact (rerootAux_leafList_perm _ _ _).trans
    (u.comp_append_restOf_perm (u.edge_comp he).1)

theorem UTree.comp_nodup {u : UTree} (hnd : u.leafList.Nodup) (k : Nat) :
    (u.comp k).leafList.Nodup := by
  simp only [UTree.leafList, List.nodup_append, List.disjoint_append_left] at hnd
  match k with
  | 0 => exact hnd.1.1
  | 1 => exact hnd.1.2.1
  | n + 2 => exact hnd.2.1

theorem UTree.comp_disjoint {u : UTree} (hnd : u.leafList.Nodup)
    {k k' : Nat} (hk : k < 3) (hk' : k' < 3) (hne : k ≠ k') :
    Disjoint (u.comp k).leafSet (u.comp k').leafSet := by
  simp only [UTree.leafList, List.nodup_append, List.disjoint_append_left] at hnd
  obtain ⟨⟨-, -, hab⟩, -, hac, hbc⟩ := hnd
  have dab : Disjoint u.a.leafSet u.b.leafSet :=
    List.disjoint_toFinset_iff_disjoint.2 hab
  have dac : Disjoint u.a.leafSet u.c.leafSet :=
    List.disjoint_toFinset_iff_disjoint.2 hac
  have dbc : Disjoint u.b.leafSet u.c.leafSet :=
    List.disjoint_toFinset_iff_disjoint.2 hbc
  interval_cases k <;> interval_cases k' <;>
    simp only [UTree.comp] <;>
    first
      | exact absurd rfl hne
      | exact dab | exact dac | exact dbc
      | exact dab.symm | exact dac.symm | exact dbc.symm

theorem UTree.comp_leafSet_subset_fullSet (u : UTree) (k : Nat) :
    (u.comp k).leafSet ⊆ u.fullSet := by
  intro x hx
  simp only [RTree.leafSet, List.mem_toFinset] at hx
  simp only [UTree.fullSet, UTree.leafList, List.mem_toFinset, List.mem_append]
  match k with
  | 0 => exact Or.inl (Or.inl hx)
  | 1 => exact Or.inl (Or.inr hx)
  | n + 2 => exact Or.inr hx

theorem UTree.dSet_subset_comp (u : UTree) (e : Nat × List Bool) :
    u.dSet e ⊆ (u.comp e.1).leafSet :=
  (u.comp e.1).subtreeAt_leafSet_subset e.2

theorem UTree.dSet_nonempty (u : UTree) (e : Nat × List Bool) :
    (u.dSet e).Nonempty :=
  ((u.comp e.1).subtreeAt e.2).leafSet_nonempty

/-- Decomposition of a rerooted candidate: its root splits the taxa into the
side below the chosen edge and the complement. -/
theorem UTree.reroot_decomp {u : UTree} (hnd : u.leafList.Nodup)
    {e : Nat × List Bool} (he : e ∈ u.edges) :
    ∃ s : RTree, u.reroot e = .node ((u.comp e.1).subtreeAt e.2) s ∧
      s.leafSet = u.fullSet \ u.dSet e := by
  obtain ⟨hk, hp⟩ := u.edge_comp he
  obtain ⟨s, hs⟩ := rerootAux_eq_node (u.comp e.1) hp (u.restOf e.1)
  rw [← UTree.reroot_eq_rerootAux he] at hs
  refine ⟨s, hs, ?_⟩
  have hperm : (u.reroot e).leafList.Perm u.leafList := u.reroot_leafList_perm he
  rw [hs] at hperm
  have hnd2 : (RTree.node ((u.comp e.1).subtreeAt e.2) s).leafList.Nodup :=
    hperm.symm.nodup hnd
  obtain ⟨-, -, hdisj⟩ := RTree.nodup_node hnd2
  have hunion : u.dSet e ∪ s.leafSet = u.fullSet := by
    have h2 := List.toFinset_eq_of_perm _ _ hperm
    simp only [RTree.leafList, List.toFinset_append] at h2
    exact h2
  rw [← hunion]
  exact (Finset.union_sdiff_cancel_left hdisj).symm

/-! Injectivity of edge sides. -/

theorem UTree.dSet_injOn {u : UTree} (hnd : u.leafList.Nodup)
    {e f : Nat × List Bool} (he : e ∈ u.edges) (hf : f ∈ u.edges)
    (hne : e ≠ f) : u.dSet e ≠ u.dSet f := by
  obtain ⟨hke, hpe⟩ := u.edge_comp he
  obtain ⟨hkf, hpf⟩ := u.edge_comp hf
  by_cases hk : e.1 = f.1
  · have hpne : e.2 ≠ f.2 := by
      intro h
      exact hne (Prod.ext hk h)
    rw [UTree.dSet, UTree.dSet, hk]
    exact RTree.subtreeAt_leafSet_injOn (u.comp_nodup hnd f.1)
      (hk ▸ hpe) hpf hpne
  · intro heq
    obtain ⟨x, hx⟩ := u.dSet_nonempty e
    have hxe : x ∈ (u.comp e.1).leafSet := u.dSet_subset_comp e hx
    have hxf : x ∈ (u.comp f.1).leafSet := u.dSet_subset_comp f (heq ▸ hx)
    exact Finset.disjoint_left.1 (u.comp_disjoint hnd hke hkf hk) hxe hxf

theorem UTree.dSet_ne_compl {u : UTree} (hnd : u.leafList.Nodup)
    {e f : Nat × List Bool} (he : e ∈ u.edges) (hf : f ∈ u.edges) :
    u.dSet f ≠ u.fullSet \ u.dSet e := by
  obtain ⟨hke, -⟩ := u.edge_comp he
  obtain ⟨hkf, -⟩ := u.edge_comp hf
  have hz : ∃ z : Nat, z < 3 ∧ z ≠ e.1 ∧ z ≠ f.1 := by
    by_cases h0e : e.1 = 0 <;> by_cases h0f : f.1 = 0 <;>
      by_cases h1e : e.1 = 1 <;> by_cases h1f : f.1 = 1 <;>
      first
        | exact ⟨2, by omega, by omega, by omega⟩
        | exact ⟨1, by omega, by omega, by omega⟩
        | exact ⟨0, by omega, by omega, by omega⟩
  obtain ⟨z, hz3, hze, hzf⟩ := hz
  intro heq
  obtain ⟨x, hx⟩ := (u.comp z).leafSet_nonempty
  have hxfull : x ∈ u.fullSet := u.comp_leafSet_subset_fullSet z hx
  have hxe : x ∉ u.dSet e := by
    intro hmem
    exact Finset.disjoint_left.1 (u.comp_disjoint hnd hz3 hke hze) hx
      (u.dSet_subset_comp e hmem)
  have hxf : x ∉ u.dSet f := by
    intro hmem
    exact Finset.disjoint_left.1 (u.comp_disjoint hnd hz3 hkf hzf) hx
      (u.dSet_subset_comp f hmem)
  exact hxf (heq ▸ Finset.mem_sdiff.2 ⟨hxfull, hxe⟩)

/-! Clade sets determine the root bipartition. -/

theorem RTree.right_child_sdiff {l r : RTree}
    (h : (RTree.node l r).leafList.Nodup) :
    r.leafSet = (RTree.node l r).leafSet \ l.leafSet := by
  obtain ⟨-, -, hd⟩ := RTree.nodup_node h
  rw [RTree.leafSet_node]
  exact (Finset.union_sdiff_cancel_left hd).symm

theorem RTree.left_child_sdiff {l r : RTree}
    (h : (RTree.node l r).leafList.Nodup) :
    l.leafSet = (RTree.node l r).leafSet \ r.leafSet := by
  obtain ⟨-, -, hd⟩ := RTree.nodup_node h
  rw [RTree.leafSet_node]
  exact (Finset.union_sdiff_cancel_right hd).symm

/-- For two fully resolved rooted trees without repeated taxa, equal clade
sets force equal root bipartitions. -/
theorem clades_eq_rootBipartition {l1 r1 l2 r2 : RTree}
    (h1 : (RTree.node l1 r1).leafList.Nodup)
    (h2 : (RTree.node l2 r2).leafList.Nodup)
    (hcl : (RTree.node l1 r1).clades = (RTree.node l2 r2).clades) :
    (l1.leafSet = l2.leafSet ∧ r1.leafSet = r2.leafSet) ∨
      (l1.leafSet = r2.leafSet ∧ r1.leafSet = l2.leafSet) := by
  obtain ⟨hnl1, hnr1, hd1⟩ := RTree.nodup_node h1
  obtain ⟨hnl2, hnr2, hd2⟩ := RTree.nodup_node h2
  have hfull : l1.leafSet ∪ r1.leafSet = l2.leafSet ∪ r2.leafSet := by
    have hs1 : (RTree.node l1 r1).leafSet ⊆ (RTree.node l2 r2).leafSet :=
      (RTree.mem_clades_subset (hcl ▸ (RTree.node l1 r1).leafSet_mem_clades)).1
    have hs2 : (RTree.node l2 r2).leafSet ⊆ (RTree.node l1 r1).leafSet :=
      (RTree.mem_clades_subset (hcl.symm ▸ (RTree.node l2 r2).leafSet_mem_clades)).1
    have := subset_antisymm hs1 hs2
    rwa [RTree.leafSet_node, RTree.leafSet_node] at this
  have hl2mem : l2.leafSet ∈ (RTree.node l1 r1).clades := by
    rw [hcl]
    exact RTree.mem_clades_iff_node.2 (Or.inr (Or.inl l2.leafSet_mem_clades))
  have hl1mem : l1.leafSet ∈ (RTree.node l2 r2).clades := by
    rw [← hcl]
    exact RTree.mem_clades_iff_node.2 (Or.inr (Or.inl l1.leafSet_mem_clades))
  have hr1mem : r1.leafSet ∈ (RTree.node l2 r2).clades := by
    rw [← hcl]
    exact RTree.mem_clades_iff_node.2 (Or.inr (Or.inr r1.leafSet_mem_clades))
  rcases RTree.mem_clades_iff_node.1 hl2mem with heq | hsub | hsub
  · exfalso
    obtain ⟨x, hx⟩ := r2.leafSet_nonempty
    have hxl2 : x ∈ l2.leafSet := by
      rw [heq, hfull]
      exact Finset.mem_union_right _ hx
    exact Finset.disjoint_left.1 hd2 hxl2 hx
  · have hl2l1 : l2.leafSet ⊆ l1.leafSet := (RTree.mem_clades_subset hsub).1
    rcases RTree.mem_clades_iff_node.1 hl1mem with heq' | hsub' | hsub'
    · exfalso
      obtain ⟨x, hx⟩ := r1.leafSet_nonempty
      have hxl1 : x ∈ l1.leafSet := by
        rw [heq', ← hfull]
        exact Finset.mem_union_right _ hx
      exact Finset.disjoint_left.1 hd1 hxl1 hx
    · have hl1l2 : l1.leafSet ⊆ l2.leafSet := (RTree.mem_clades_subset hsub').1
      have hll : l1.leafSet = l2.leafSet := subset_antisymm hl1l2 hl2l1
      refine Or.inl ⟨hll, ?_⟩
      rw [RTree.right_child_sdiff h1, RTree.right_child_sdiff h2,
        RTree.leafSet_node, RTree.leafSet_node, hfull, hll]
    · exfalso
      obtain ⟨x, hx⟩ := l2.leafSet_nonempty
      have hxr2 : x ∈ r2.leafSet := (RTree.mem_clades_subset hsub').1 (hl2l1 hx)
      exact Finset.disjoint_left.1 hd2 hx hxr2
  · have hl2r1 : l2.leafSet ⊆ r1.leafSet := (RTree.mem_clades_subset hsub).1
    rcases RTree.mem_clades_iff_node.1 hr1mem with heq' | hsub' | hsub'
    · exfalso
      obtain ⟨x, hx⟩ := l1.leafSet_nonempty
      have hxr1 : x ∈ r1.leafSet := by
        rw [heq', ← hfull]
        exact Finset.mem_union_left _ hx
      exact Finset.disjoint_left.1 hd1 hx hxr1
    · have hr1l2 : r1.leafSet ⊆ l2.leafSet := (RTree.mem_clades_subset hsub').1
      have hrl : r1.leafSet = l2.leafSet := subset_antisymm hr1l2 hl2r1
      refine Or.inr ⟨?_, hrl⟩
      rw [RTree.left_child_sdiff h1, RTree.right_child_sdiff h2,
        RTree.leafSet_node, RTree.leafSet_node, hfull, hrl]
    · exfalso
      obtain ⟨x, hx⟩ := l2.leafSet_nonempty
      have hxr2 : x ∈ r2.leafSet := (RTree.mem_clades_subset hsub').1 (hl2r1 hx)
      exact Finset.disjoint_left.1 hd2 hx hxr2

/-- Distinct edges of the unrooted tree produce rooted candidates with
distinct clade sets. -/
theorem UTree.reroot_clades_injOn {u : UTree} (hnd : u.leafList.Nodup)
    {e f : Nat × List Bool} (he : e ∈ u.edges) (hf : f ∈ u.edges)
    (hne : e ≠ f) : (u.reroot e).clades ≠ (u.reroot f).clades := by
  obtain ⟨se, hse, hsle⟩ := u.reroot_decomp hnd he
  obtain ⟨sf, hsf, hslf⟩ := u.reroot_decomp hnd hf
  intro heq
  have hnde : (u.reroot e).leafList.Nodup :=
    (u.reroot_leafList_perm he).symm.nodup hnd
  have hndf : (u.reroot f).leafList.Nodup :=
    (u.reroot_leafList_perm hf).symm.nodup hnd
  rw [hse] at hnde heq
  rw [hsf] at hndf heq
  rcases clades_eq_rootBipartition hnde hndf heq with ⟨hx, -⟩ | ⟨hx, -⟩
  · exact UTree.dSet_injOn hnd he hf hne hx
  · rw [hslf] at hx
    exact UTree.dSet_ne_compl hnd hf he hx

/-! Symmetric difference and the duplicate-removal pass. -/

theorem symdiff_eq_zero_iff {t1 t2 : RTree} :
    symdiff t1 t2 = 0 ↔ t1.clades = t2.clades := by
  unfold symdiff
  constructor
  · intro h
    have h1 : t1.clades \ t2.clades = ∅ := Finset.card_eq_zero.1 (by omega)
    have h2 : t2.clades \ t1.clades = ∅ := Finset.card_eq_zero.1 (by omega)
    exact subset_antisymm (Finset.sdiff_eq_empty_iff_subset.1 h1)
      (Finset.sdiff_eq_empty_iff_subset.1 h2)
  · intro h
    rw [h]
    simp

theorem removeFirstDup_of_forall {c0 : RTree} {l : List RTree}
    (h : ∀ x ∈ l, symdiff c0 x ≠ 0) : removeFirstDup c0 l = l := by
  induction l with
  | nil => rfl
  | cons x xs ih =>
      rw [removeFirstDup, if_neg (h x (List.mem_cons_self x xs)),
        ih (fun y hy => h y (List.mem_cons_of_mem x hy))]

theorem RTree.positions_nodup (t : RTree) : t.positions.Nodup := by
  induction t with
  | leaf a => simp [RTree.positions]
  | node l r ihl ihr =>
      rw [RTree.positions, List.nodup_cons]
      constructor
      · intro hmem
        rcases List.mem_append.1 hmem with h | h <;>
          · obtain ⟨q, -, hq⟩ := List.mem_map.1 h
            exact List.noConfusion hq
      · rw [List.nodup_append]
        refine ⟨ihl.map (fun x y h => by injection h),
          ihr.map (fun x y h => by injection h), ?_⟩
        intro x hx hy
        obtain ⟨q1, -, hq1⟩ := List.mem_map.1 hx
        obtain ⟨q2, -, hq2⟩ := List.mem_map.1 hy
        rw [← hq1] at hq2
        exact Bool.noConfusion (List.cons.inj hq2).1

theorem UTree.edges_nodup (u : UTree) : u.edges.Nodup := by
  rw [UTree.edges, List.nodup_append, List.nodup_append]
  have hinj0 : ∀ k : Nat, Function.Injective (fun p : List Bool => (k, p)) := by
    intro k x y h
    exact (Prod.mk.injEq k x k y ▸ h).2
  refine ⟨(u.a.positions_nodup).map (hinj0 0),
    ⟨(u.b.positions_nodup).map (hinj0 1), (u.c.positions_nodup).map (hinj0 2), ?_⟩, ?_⟩
  · intro x hx hy
    obtain ⟨q1, -, hq1⟩ := List.mem_map.1 hx
    obtain ⟨q2, -, hq2⟩ := List.mem_map.1 hy
    rw [← hq1] at hq2
    exact absurd (Prod.ext_iff.1 hq2).1 (by omega)
  · intro x hx hy
    obtain ⟨q1, -, hq1⟩ := List.mem_map.1 hx
    rcases List.mem_append.1 hy with h | h <;>
      · obtain ⟨q2, -, hq2⟩ := List.mem_map.1 h
        rw [← hq1] at hq2
        exact absurd (Prod.ext_iff.1 hq2).1 (by omega)

theorem UTree.edges_length (u : UTree) :
    u.edges.length + 3 = 2 * u.leafList.length := by
  have ha := u.a.positions_length
  have hb := u.b.positions_length
  have hc := u.c.positions_length
  simp only [UTree.edges, UTree.leafList, List.length_append, List.length_map]
  omega

theorem gen_candidates_pairwise {u : UTree} (hnd : u.leafList.Nodup) :
    List.Pairwise (fun t1 t2 => 0 < symdiff t1 t2) (u.edges.map u.reroot) := by
  rw [List.pairwise_map]
  refine List.Pairwise.imp_of_mem ?_ u.edges_nodup
  intro e f he hf hne
  have hcl := UTree.reroot_clades_injOn hnd he hf hne
  have hs : symdiff (u.reroot e) (u.reroot f) ≠ 0 :=
    fun h => hcl (symdiff_eq_zero_iff.1 h)
  omega

theorem removeFirstDup_spec (c0 : RTree) (l : List RTree) :
    (removeFirstDup c0 l = l ∧ ∀ x ∈ l, symdiff c0 x ≠ 0) ∨
      ∃ l1 x l2, l = l1 ++ x :: l2 ∧ symdiff c0 x = 0 ∧
        (∀ y ∈ l1, symdiff c0 y ≠ 0) ∧ removeFirstDup c0 l = l1 ++ l2 := by
  induction l with
  | nil => exact Or.inl ⟨rfl, by simp⟩
  | cons x xs ih =>
      by_cases h : symdiff c0 x = 0
      · refine Or.inr ⟨[], x, xs, by simp, h, by simp, ?_⟩
        rw [removeFirstDup, if_pos h]
        rfl
      · rcases ih with ⟨heq, hall⟩ | ⟨l1, y, l2, hxs, hy, hl1, heq⟩
        · refine Or.inl ⟨?_, ?_⟩
          · rw [removeFirstDup, if_neg h, heq]
          · intro z hz
            rcases List.mem_cons.1 hz with rfl | hz'
            · exact h
            · exact hall z hz'
        · refine Or.inr ⟨x :: l1, y, l2, by rw [hxs, List.cons_append], hy, ?_, ?_⟩
          · intro z hz
            rcases List.mem_cons.1 hz with rfl | hz'
            · exact h
            · exact hl1 z hz'
          · rw [removeFirstDup, if_neg h, heq, List.cons_append]

theorem gen_candidates_cons (u : UTree) :
    ∃ c0 rest, u.edges.map u.reroot = c0 :: rest := by
  cases hg : u.edges.map u.reroot with
  | nil =>
      exfalso
      have hlen := u.edges_length
      have ha := u.a.leafList_ne_nil
      rw [← List.length_map u.edges u.reroot, hg] at hlen
      simp only [List.length_nil] at hlen
      have : u.leafList.length ≠ 0 := by
        simp only [UTree.leafList, List.length_append]
        intro h
        exact ha (List.length_eq_zero.1 (by omega))
      omega
  | cons x xs => exact ⟨x, xs, rfl⟩

/-- C1: For every fully resolved unrooted binary species tree on n taxa,
n at least 5, get_all_rooted_trees returns between 2n-5 and 2n-3 rooted
trees, and every pair of returned trees is topologically distinct
(pairwise symmetric difference greater than 0). -/
theorem get_all_rooted_trees_card_bounds_and_distinct (u : UTree)
    (hnd : u.leafList.Nodup) (h5 : 5 ≤ u.leafList.length) :
    (2 * u.leafList.length - 5 ≤ (get_all_rooted_trees u).length ∧
      (get_all_rooted_trees u).length ≤ 2 * u.leafList.length - 3) ∧
    List.Pairwise (fun t1 t2 => 0 < symdiff t1 t2) (get_all_rooted_trees u) := by
  have hpar := gen_candidates_pairwise hnd
  have hlen : (u.edges.map u.reroot).length + 3 = 2 * u.leafList.length := by
    rw [List.length_map]
    exact u.edges_length
  obtain ⟨c0, rest, hgen⟩ := gen_candidates_cons u
  have hresult : get_all_rooted_trees u = u.edges.map u.reroot := by
    rw [get_all_rooted_trees, hgen, removeDuplicatesPass]
    rw [hgen] at hpar
    have hhead := (List.pairwise_cons.1 hpar).1
    rw [removeFirstDup_of_forall (fun x hx => by have := hhead x hx; omega)]
  rw [hresult]
  exact ⟨⟨by omega, by omega⟩, hpar⟩

/-- Fixed 5-taxon unrooted tree used to instantiate universally quantified
theorems at a concrete input. -/
def demoU5 : UTree :=
  ⟨.leaf 0, .leaf 1, .node (.node (.leaf 2) (.leaf 3)) (.leaf 4)⟩

theorem get_all_rooted_trees_card_bounds_and_distinct_witness :
    (demoU5.leafList.Nodup ∧ 5 ≤ demoU5.leafList.length) ∧
    ((2 * demoU5.leafList.length - 5 ≤ (get_all_rooted_trees demoU5).length ∧
      (get_all_rooted_trees demoU5).length ≤ 2 * demoU5.leafList.length - 3) ∧
     List.Pairwise (fun t1 t2 => 0 < symdiff t1 t2) (get_all_rooted_trees demoU5)) :=
  ⟨⟨by decide, by decide⟩,
    get_all_rooted_trees_card_bounds_and_distinct demoU5 (by decide) (by decide)⟩

/-- C4: In get_all_rooted_trees, the duplicate-removal pass removes at most
one candidate: it only ever removes a candidate whose symmetric difference
with the first generated candidate is zero, and it stops after the first
such removal, leaving all other candidates (including any remaining
duplicates) in the result. -/
theorem dedup_pass_removes_at_most_one (u : UTree) :
    ∃ c0 rest, u.edges.map u.reroot = c0 :: rest ∧
      get_all_rooted_trees u = c0 :: removeFirstDup c0 rest ∧
      ((removeFirstDup c0 rest = rest ∧ ∀ x ∈ rest, symdiff c0 x ≠ 0) ∨
        ∃ l1 x l2, rest = l1 ++ x :: l2 ∧ symdiff c0 x = 0 ∧
          (∀ y ∈ l1, symdiff c0 y ≠ 0) ∧ removeFirstDup c0 rest = l1 ++ l2) := by
  obtain ⟨c0, rest, hgen⟩ := gen_candidates_cons u
  refine ⟨c0, rest, hgen, ?_, removeFirstDup_spec c0 rest⟩
  rw [get_all_rooted_trees, hgen, removeDuplicatesPass]

/-! Quintet sampling. -/

/-- Model of itertools.combinations: all k-element subsequences of the
input list, keeping the input order. -/
def combinations {α : Type} : Nat → List α → List (List α)
  | 0, _ => [[]]
  | _ + 1, [] => []
  | k + 1, x :: xs =>
      (combinations k xs).map (fun s => x :: s) ++ combinations (k + 1) xs

theorem combinations_length {α : Type} :
    ∀ (k : Nat) (l : List α), (combinations k l).length = l.length.choose k := by
  intro k l
  induction l generalizing k with
  | nil =>
      cases k with
      | zero => rfl
      | succ k => rfl
  | cons x xs ih =>
      cases k with
      | zero => rfl
      | succ k =>
          simp only [combinations, List.length_append, List.length_map, ih,
            List.length_cons, Nat.choose_succ_succ]

theorem mem_combinations_iff {α : Type} {k : Nat} {l s : List α} :
    s ∈ combinations k l ↔ s.Sublist l ∧ s.length = k := by
  induction l generalizing k s with
  | nil =>
      cases k with
      | zero =>
          simp only [combinations, List.mem_singleton]
          constructor
          · rintro rfl
            exact ⟨List.Sublist.refl _, rfl⟩
          · rintro ⟨hs, -⟩
            exact List.sublist_nil.1 hs
      | succ k =>
          simp only [combinations, List.not_mem_nil, false_iff, not_and]
          intro hs
          rw [List.sublist_nil.1 hs]
          simp
  | cons x xs ih =>
      cases k with
      | zero =>
          simp only [combinations, List.mem_singleton]
          constructor
          · rintro rfl
            exact ⟨List.nil_sublist _, rfl⟩
          · rintro ⟨-, hlen⟩
            exact (List.length_eq_zero.1 hlen).symm ▸ rfl
      | succ k =>
          simp only [combinations, List.mem_append, List.mem_map]
          constructor
          · rintro (⟨t, ht, rfl⟩ | hmem)
            · obtain ⟨hsub, hlen⟩ := ih.1 ht
              exact ⟨hsub.cons₂ x, by simp [hlen]⟩
            · obtain ⟨hsub, hlen⟩ := ih.1 hmem
              exact ⟨hsub.cons x, hlen⟩
          · rintro ⟨hsub, hlen⟩
            cases hsub with
            | cons _ h => exact Or.inr (ih.2 ⟨h, hlen⟩)
            | cons₂ _ h =>
                rename_i t
                refine Or.inl ⟨t, ih.2 ⟨h, ?_⟩, rfl⟩
                simpa using hlen

/-- Model of the sampling dispatch in main: exhaustive enumeration when the
taxon set has 5 taxa or the method is d, else one of the tc, le, rl
samplers (which live in qr.quintet_sampling, outside the provided source,
and are passed as parameters), else no quintets at all. -/
def select_sample (tcSample : List Nat → List (List Nat))
    (leSample : UTree → List Nat → List (List Nat))
    (rlSample : List Nat → List (List Nat))
    (sampling_method : String) (taxon_set : List Nat) (u : UTree) :
    List (List Nat) :=
  if taxon_set.length = 5 ∨ sampling_method = "d" then combinations 5 taxon_set
  else if sampling_method = "tc" then tcSample taxon_set
  else if sampling_method = "le" then leSample u taxon_set
  else if sampling_method = "rl" then rlSample taxon_set
  else []

/-- C6: Under exhaustive sampling — selected whenever the taxon set has
exactly 5 taxa or the sampling policy is d — the sampled quintet set is
exactly the set of all 5-combinations of the taxon set, C(n,5) in total,
each a 5-element tuple of distinct taxa. -/
theorem exhaustive_sampling_all_combinations
    (tcSample : List Nat → List (List Nat))
    (leSample : UTree → List Nat → List (List Nat))
    (rlSample : List Nat → List (List Nat))
    (sampling_method : String) (taxon_set : List Nat) (u : UTree)
    (hnd : taxon_set.Nodup)
    (h : taxon_set.length = 5 ∨ sampling_method = "d") :
    select_sample tcSample leSample rlSample sampling_method taxon_set u =
      combinations 5 taxon_set ∧
    (combinations 5 taxon_set).length = taxon_set.length.choose 5 ∧
    (∀ s ∈ combinations 5 taxon_set,
      s.length = 5 ∧ s.Nodup ∧ s.Sublist taxon_set) ∧
    (∀ s : List Nat, s.Sublist taxon_set → s.length = 5 →
      s ∈ combinations 5 taxon_set) := by
  refine ⟨by rw [select_sample, if_pos h], combinations_length 5 taxon_set, ?_, ?_⟩
  · intro s hs
    obtain ⟨hsub, hlen⟩ := mem_combinations_iff.1 hs
    exact ⟨hlen, hsub.nodup hnd, hsub⟩
  · intro s hsub hlen
    exact mem_combinations_iff.2 ⟨hsub, hlen⟩

theorem exhaustive_sampling_all_combinations_witness :
    (([10, 20, 30, 40, 50, 60] : List Nat).Nodup ∧
      (([10, 20, 30, 40, 50, 60] : List Nat).length = 5 ∨ "d" = "d")) ∧
    (select_sample (fun _ => []) (fun _ _ => []) (fun _ => []) "d"
        [10, 20, 30, 40, 50, 60] demoU5 = combinations 5 [10, 20, 30, 40, 50, 60] ∧
     (combinations 5 ([10, 20, 30, 40, 50, 60] : List Nat)).length =
       ([10, 20, 30, 40, 50, 60] : List Nat).length.choose 5 ∧
     (∀ s ∈ combinations 5 ([10, 20, 30, 40, 50, 60] : List Nat),
       s.length = 5 ∧ s.Nodup ∧ s.Sublist [10, 20, 30, 40, 50, 60]) ∧
     (∀ s : List Nat, s.Sublist [10, 20, 30, 40, 50, 60] → s.length = 5 →
       s ∈ combinations 5 [10, 20, 30, 40, 50, 60])) :=
  ⟨⟨by decide, Or.inr rfl⟩,
    exhaustive_sampling_all_combinations (fun _ => []) (fun _ _ => [])
      (fun _ => []) "d" [10, 20, 30, 40, 50, 60] demoU5 (by decide) (Or.inr rfl)⟩

/-! Numeric helpers modelling the numpy operations used by main. -/

/-- Model of np.max over a score vector. -/
def npmax : List ℚ → ℚ
  | [] => 0
  | x :: xs => xs.foldl max x

theorem foldl_max_init_le (xs : List ℚ) (a : ℚ) : a ≤ xs.foldl max a := by
  induction xs generalizing a with
  | nil => exact le_refl a
  | cons y ys ih => exact le_trans (le_max_left a y) (ih (max a y))

theorem foldl_max_mem_le (xs : List ℚ) (a : ℚ) :
    ∀ y ∈ xs, y ≤ xs.foldl max a := by
  induction xs generalizing a with
  | nil => intro y hy; exact absurd hy (List.not_mem_nil y)
  | cons z zs ih =>
      intro y hy
      rcases List.mem_cons.1 hy with rfl | hy'
      · exact le_trans (le_max_right a y) (foldl_max_init_le zs (max a y))
      · exact ih (max a z) y hy'

theorem le_npmax_of_mem {l : List ℚ} : ∀ y ∈ l, y ≤ npmax l := by
  cases l with
  | nil => intro y hy; exact absurd hy (List.not_mem_nil y)
  | cons x xs =>
      intro y hy
      rcases List.mem_cons.1 hy with rfl | hy'
      · exact foldl_max_init_le xs y
      · exact foldl_max_mem_le xs x y hy'

/-- Model of np.argmin: index of the first minimum entry of the vector. -/
def npArgmin : List ℚ → Nat
  | [] => 0
  | [_] => 0
  | x :: y :: ys =>
      if (y :: ys).getD (npArgmin (y :: ys)) 0 < x then npArgmin (y :: ys) + 1
      else 0

theorem npArgmin_lt_length (l : List ℚ) (h : l ≠ []) :
    npArgmin l < l.length := by
  induction l with
  | nil => exact absurd rfl h
  | cons x xs ih =>
      cases xs with
      | nil => simp [npArgmin]
      | cons y ys =>
          rw [npArgmin]
          by_cases hlt : (y :: ys).getD (npArgmin (y :: ys)) 0 < x
          · rw [if_pos hlt]
            have := ih (by simp)
            simpa using this
          · rw [if_neg hlt]
            simp

theorem npArgmin_is_min (l : List ℚ) :
    ∀ i < l.length, l.getD (npArgmin l) 0 ≤ l.getD i 0 := by
  induction l with
  | nil => intro i hi; simp at hi
  | cons x xs ih =>
      cases xs with
      | nil =>
          intro i hi
          have h0 : i = 0 := by simpa using hi
          subst h0
          exact le_refl _
      | cons y ys =>
          intro i hi
          rw [npArgmin]
          by_cases hlt : (y :: ys).getD (npArgmin (y :: ys)) 0 < x
          · rw [if_pos hlt]
            rw [List.getD_cons_succ]
            cases i with
            | zero => exact le_of_lt hlt
            | succ j =>
                rw [List.getD_cons_succ]
                exact ih j (by simpa using hi)
          · rw [if_neg hlt]
            rw [List.getD_cons_zero]
            cases i with
            | zero => exact le_refl x
            | succ j =>
                rw [List.getD_cons_succ]
                have hxm : x ≤ (y :: ys).getD (npArgmin (y :: ys)) 0 := le_of_not_lt hlt
                exact le_trans hxm (ih j (by simpa using hi))

theorem npArgmin_is_first (l : List ℚ) :
    ∀ j < npArgmin l, l.getD (npArgmin l) 0 < l.getD j 0 := by
  induction l with
  | nil => intro j hj; simp [npArgmin] at hj
  | cons x xs ih =>
      cases xs with
      | nil => intro j hj; simp [npArgmin] at hj
      | cons y ys =>
          intro j hj
          rw [npArgmin] at hj ⊢
          by_cases hlt : (y :: ys).getD (npArgmin (y :: ys)) 0 < x
          · rw [if_pos hlt] at hj ⊢
            rw [List.getD_cons_succ]
            cases j with
            | zero => exact hlt
            | succ j' =>
                rw [List.getD_cons_succ]
                exact ih j' (by omega)
          · rw [if_neg hlt] at hj
            omega

/-- Model of np.argsort: index list ordered so the scores are ascending
(a comparison sort on the index range; ties in unspecified order, as for
numpy's default unstable quicksort). -/
def npArgsort (l : List ℚ) : List Nat :=
  (List.range l.length).insertionSort (fun i j => l.getD i 0 ≤ l.getD j 0)

theorem npArgsort_perm_range (l : List ℚ) :
    (npArgsort l).Perm (List.range l.length) :=
  List.perm_insertionSort _ _

theorem npArgsort_sorted (l : List ℚ) :
    List.Pairwise (fun i j => l.getD i 0 ≤ l.getD j 0) (npArgsort l) := by
  have htot : IsTotal Nat (fun i j => l.getD i 0 ≤ l.getD j 0) :=
    ⟨fun a b => le_total _ _⟩
  have htrans : IsTrans Nat (fun i j => l.getD i 0 ≤ l.getD j 0) :=
    ⟨fun a b c hab hbc => le_trans hab hbc⟩
  exact @List.sorted_insertionSort Nat (fun i j => l.getD i 0 ≤ l.getD j 0) _
    htot htrans (List.range l.length)

/-- Confidence-score vector of main: elementwise
(max score - score) / sum over candidates of (max score - score). -/
def confidence_scores (r : List ℚ) : List ℚ :=
  r.map (fun x => (npmax r - x) / (r.map (fun y => npmax r - y)).sum)

/-- Ranking file content written by main under the confidence-score flag:
candidates in np.argsort order of their scores, each paired with its
confidence score. -/
def ranking_output (cands : List RTree) (r : List ℚ) : List (RTree × ℚ) :=
  (npArgsort r).map
    (fun i => (cands.getD i default, (confidence_scores r).getD i 0))

/-! Per-quintet cost vectors. -/

/-- Model of compute_cost_rooted_quintets: scores the 7 possible rootings
of an unrooted quintet. The cost function (qr.fitness_cost), the
u2r_mapping and idx_2_unlabeled_topology tables (qr.adr_theory) and the
rooted_quintet_indices array (a data file) are repository parts outside
the provided source, so they are taken as parameters; the shapes of a
partial-order index record and of an unlabeled topology class are the
abstract types A and B. -/
def compute_cost_rooted_quintets {A B : Type}
    (cost : List ℚ → A → B → String → ℚ)
    (u2r_mapping : Nat → Nat → Nat)
    (idx_2_unlabeled_topology : Nat → B)
    (rooted_quintet_indices : Nat → A)
    (u_distribution : List ℚ) (u_idx : Nat) (cost_func : String) : List ℚ :=
  (List.range 7).map (fun i =>
    cost u_distribution (rooted_quintet_indices (u2r_mapping u_idx i))
      (idx_2_unlabeled_topology (u2r_mapping u_idx i)) cost_func)

/-- C5: compute_cost_rooted_quintets returns a vector of exactly 7 costs
whose i-th entry is the cost of the i-th rooted topology listed in
u2r_mapping[u_idx], each obtained by one invocation of the cost function
with the same single distribution. -/
theorem compute_cost_rooted_quintets_seven_entries {A B : Type}
    (cost : List ℚ → A → B → String → ℚ) (u2r_mapping : Nat → Nat → Nat)
    (idx_2_unlabeled_topology : Nat → B) (rooted_quintet_indices : Nat → A)
    (u_distribution : List ℚ) (u_idx : Nat) (cost_func : String) :
    (compute_cost_rooted_quintets cost u2r_mapping idx_2_unlabeled_topology
        rooted_quintet_indices u_distribution u_idx cost_func).length = 7 ∧
    ∀ i : Fin 7,
      (compute_cost_rooted_quintets cost u2r_mapping idx_2_unlabeled_topology
          rooted_quintet_indices u_distribution u_idx cost_func).getD i 0 =
        cost u_distribution (rooted_quintet_indices (u2r_mapping u_idx i))
          (idx_2_unlabeled_topology (u2r_mapping u_idx i)) cost_func := by
  constructor
  · simp [compute_cost_rooted_quintets]
  · intro i
    have hi : (i : Nat) < 7 := i.isLt
    simp [compute_cost_rooted_quintets, List.getD_eq_getElem?_getD,
      List.getElem?_map, List.getElem?_range, hi]

/-- C9: the per-quintet cost computation is deterministic and depends only
on its explicit arguments; two invocations of compute_cost_rooted_quintets
with identical arguments yield identical length-7 cost vectors. -/
theorem compute_cost_rooted_quintets_deterministic {A B : Type}
    (cost : List ℚ → A → B → String → ℚ) (u2r_mapping : Nat → Nat → Nat)
    (idx_2_unlabeled_topology : Nat → B) (rqi1 rqi2 : Nat → A)
    (d1 d2 : List ℚ) (uIdx1 uIdx2 : Nat) (cf1 cf2 : String)
    (hd : d1 = d2) (hu : uIdx1 = uIdx2) (hr : rqi1 = rqi2) (hc : cf1 = cf2) :
    compute_cost_rooted_quintets cost u2r_mapping idx_2_unlabeled_topology
        rqi1 d1 uIdx1 cf1 =
      compute_cost_rooted_quintets cost u2r_mapping idx_2_unlabeled_topology
        rqi2 d2 uIdx2 cf2 := by
  subst hd hu hr hc
  rfl

theorem compute_cost_rooted_quintets_deterministic_witness :
    ((([1, 0] : List ℚ) = [1, 0]) ∧ (3 : Nat) = 3 ∧
      (fun n : Nat => n) = (fun n : Nat => n) ∧ "d" = "d") ∧
    compute_cost_rooted_quintets (fun d _ _ _ => d.sum) (fun u i => u + i)
        (fun n => n) (fun n : Nat => n) [1, 0] 3 "d" =
      compute_cost_rooted_quintets (fun d _ _ _ => d.sum) (fun u i => u + i)
        (fun n => n) (fun n : Nat => n) [1, 0] 3 "d" :=
  ⟨⟨rfl, rfl, rfl, rfl⟩,
    compute_cost_rooted_quintets_deterministic (fun d _ _ _ => d.sum)
      (fun u i => u + i) (fun n => n) (fun n : Nat => n) (fun n : Nat => n)
      [1, 0] [1, 0] 3 3 "d" "d" rfl rfl rfl rfl⟩

/-! Model of main. -/

/-- Repository functions used by main that live outside the provided
source file (qr.quintet_sampling, qr.utils, qr.fitness_cost,
qr.adr_theory and the rooted_quintet_indices data file), plus the external
tree-restriction collaborator, passed as explicit parameters.
get_quintet_rooted_index is abstracted as a function of the candidate
index and the quintet index: it resolves the restriction of candidate i to
quintet j against the 7 canonical rootings of that quintet. -/
structure QRModules (A B : Type) where
  tcSample : List Nat → List (List Nat)
  leSample : UTree → List Nat → List (List Nat)
  rlSample : List Nat → List (List Nat)
  gene_tree_distribution : List Nat → List ℚ
  get_quintet_unrooted_index : List Nat → Nat
  get_quintet_rooted_index : Nat → Nat → Nat
  cost : List ℚ → A → B → String → ℚ
  u2r_mapping : Nat → Nat → Nat
  idx_2_unlabeled_topology : Nat → B
  rooted_quintet_indices : Nat → A

/-- Observable outcome of one run of main: the candidate search space, the
sampled quintets, the per-quintet 7-way cost vectors, the aggregated
scores, the argmin index, the tree written to the output file, and the
optional confidence ranking file content. -/
structure MainResult where
  rooted_candidates : List RTree
  sample_quintet_taxa : List (List Nat)
  quintet_scores : List (List ℚ)
  r_score : List ℚ
  min_idx : Nat
  out_tree : RTree
  ranking : Option (List (RTree × ℚ))
deriving DecidableEq

/-- Model of the Python str.lower call applied to the mode flags
(executable character-by-character lowering). -/
def pyLower (s : String) : String := ⟨s.data.map Char.toLower⟩

/-- Model of main: validates the taxon count, builds the rooted search
space, samples quintets, precomputes per-quintet cost vectors, accumulates
each candidate's score over the sampled quintets, writes the argmin
candidate, and optionally the confidence ranking. -/
def main_model {A B : Type} (m : QRModules A B) (taxa : List Nat) (u : UTree)
    (samplingmethod cost_arg : String) (confidencescore : Bool) :
    Except String MainResult :=
  if taxa.length < 5 then
    .error "Species tree has less than 5 taxa!"
  else
    let cost_func := pyLower cost_arg
    let rooted_candidates := get_all_rooted_trees u
    let sample := select_sample m.tcSample m.leSample m.rlSample
      (pyLower samplingmethod) taxa u
    let quintet_scores := sample.map (fun q =>
      compute_cost_rooted_quintets m.cost m.u2r_mapping
        m.idx_2_unlabeled_topology m.rooted_quintet_indices
        (m.gene_tree_distribution q) (m.get_quintet_unrooted_index q)
        cost_func)
    let r_score := (List.range rooted_candidates.length).map (fun i =>
      (List.range sample.length).foldl
        (fun acc j =>
          acc + (quintet_scores.getD j []).getD (m.get_quintet_rooted_index i j) 0)
        0)
    let min_idx := npArgmin r_score
    .ok
      { rooted_candidates := rooted_candidates
        sample_quintet_taxa := sample
        quintet_scores := quintet_scores
        r_score := r_score
        min_idx := min_idx
        out_tree := rooted_candidates.getD min_idx default
        ranking :=
          if confidencescore then
            some (ranking_output rooted_candidates r_score)
          else none }

theorem foldl_add_eq_sum (f : Nat → ℚ) (n : Nat) :
    (List.range n).foldl (fun acc j => acc + f j) 0 =
      ((List.range n).map f).sum := by
  induction n with
  | zero => rfl
  | succ k ih =>
      rw [List.range_succ, List.foldl_append, List.map_append, List.sum_append,
        ih]
      simp

theorem getD_map_range {α : Type} (f : Nat → α) (d : α) {n i : Nat}
    (hi : i < n) : ((List.range n).map f).getD i d = f i := by
  simp [List.getD_eq_getElem?_getD, List.getElem?_map, List.getElem?_range, hi]

theorem get_all_rooted_trees_length_pos (u : UTree) :
    0 < (get_all_rooted_trees u).length := by
  obtain ⟨c0, rest, hgen⟩ := gen_candidates_cons u
  rw [get_all_rooted_trees, hgen, removeDuplicatesPass]
  simp

theorem get_all_rooted_trees_head (u : UTree) :
    (get_all_rooted_trees u).getD 0 default = (u.edges.map u.reroot).headI := by
  obtain ⟨c0, rest, hgen⟩ := gen_candidates_cons u
  rw [get_all_rooted_trees, hgen, removeDuplicatesPass]
  rfl

/-- Concrete instantiation of the repository modules missing from the
provided source, with a cost function that is identically zero: every
quintet scores all 7 rootings 0, so every candidate ends with equal total
cost. -/
def zeroModules : QRModules Unit Unit where
  tcSample := fun _ => []
  leSample := fun _ _ => []
  rlSample := fun _ => []
  gene_tree_distribution := fun _ => []
  get_quintet_unrooted_index := fun _ => 0
  get_quintet_rooted_index := fun _ _ => 0
  cost := fun _ _ _ _ => 0
  u2r_mapping := fun _ _ => 0
  idx_2_unlabeled_topology := fun _ => ()
  rooted_quintet_indices := fun _ => ()

/-- C7: If the input species tree has fewer than 5 taxa, the run aborts
with a descriptive error before any gene-tree processing, candidate
generation, sampling or scoring, and no output is produced. -/
theorem main_model_aborts_below_five_taxa {A B : Type} (m : QRModules A B)
    (taxa : List Nat) (u : UTree) (sm c : String) (cfs : Bool)
    (h : taxa.length < 5) :
    main_model m taxa u sm c cfs =
      .error "Species tree has less than 5 taxa!" := by
  rw [main_model, if_pos h]

theorem main_model_aborts_below_five_taxa_witness :
    (([0, 1, 2] : List Nat).length < 5) ∧
    main_model zeroModules [0, 1, 2] demoU5 "d" "d" false =
      .error "Species tree has less than 5 taxa!" :=
  ⟨by decide,
    main_model_aborts_below_five_taxa zeroModules [0, 1, 2] demoU5 "d" "d"
      false (by decide)⟩

/-- C3: each rooted candidate's total score equals the sum, over all
sampled quintets, of the precomputed cost entry selected for that
candidate on that quintet, and the tree written to the output is a
candidate of minimum total score; among equal-minimum candidates the one
with the smallest (first-encountered) index is written. -/
theorem main_model_scores_and_argmin {A B : Type} (m : QRModules A B)
    (taxa : List Nat) (u : UTree) (sm c : String) (cfs : Bool)
    (h5 : 5 ≤ taxa.length) :
    ∃ res, main_model m taxa u sm c cfs = .ok res ∧
      res.r_score.length = res.rooted_candidates.length ∧
      (∀ i < res.rooted_candidates.length,
        res.r_score.getD i 0 =
          ((List.range res.sample_quintet_taxa.length).map (fun j =>
            (res.quintet_scores.getD j []).getD
              (m.get_quintet_rooted_index i j) 0)).sum) ∧
      res.min_idx < res.r_score.length ∧
      res.out_tree = res.rooted_candidates.getD res.min_idx default ∧
      (∀ i < res.r_score.length,
        res.r_score.getD res.min_idx 0 ≤ res.r_score.getD i 0) ∧
      (∀ j < res.min_idx,
        res.r_score.getD res.min_idx 0 < res.r_score.getD j 0) := by
  rw [main_model, if_neg (not_lt.2 h5)]
  refine ⟨_, rfl, ?_, ?_, ?_, rfl, ?_, ?_⟩
  · simp
  · intro i hi
    dsimp only
    rw [getD_map_range _ _ (by simpa using hi)]
    exact foldl_add_eq_sum _ _
  · dsimp only
    apply npArgmin_lt_length
    apply List.length_pos.1
    simp [get_all_rooted_trees_length_pos u]
  · intro i hi
    exact npArgmin_is_min _ i hi
  · intro j hj
    exact npArgmin_is_first _ j hj

theorem main_model_scores_and_argmin_witness :
    (5 ≤ ([0, 1, 2, 3, 4] : List Nat).length) ∧
    (∃ res, main_model zeroModules [0, 1, 2, 3, 4] demoU5 "d" "d" false = .ok res ∧
      res.r_score.length = res.rooted_candidates.length ∧
      (∀ i < res.rooted_candidates.length,
        res.r_score.getD i 0 =
          ((List.range res.sample_quintet_taxa.length).map (fun j =>
            (res.quintet_scores.getD j []).getD
              (zeroModules.get_quintet_rooted_index i j) 0)).sum) ∧
      res.min_idx < res.r_score.length ∧
      res.out_tree = res.rooted_candidates.getD res.min_idx default ∧
      (∀ i < res.r_score.length,
        res.r_score.getD res.min_idx 0 ≤ res.r_score.getD i 0) ∧
      (∀ j < res.min_idx,
        res.r_score.getD res.min_idx 0 < res.r_score.getD j 0)) :=
  ⟨by decide,
    main_model_scores_and_argmin zeroModules [0, 1, 2, 3, 4] demoU5 "d" "d"
      false (by decide)⟩

theorem npArgmin_replicate_zero (n : Nat) (q : ℚ) :
    npArgmin (List.replicate n q) = 0 := by
  cases n with
  | zero => rfl
  | succ k =>
      by_contra h
      have hpos : 0 < npArgmin (List.replicate (k + 1) q) :=
        Nat.pos_of_ne_zero h
      have hlt := npArgmin_is_first (List.replicate (k + 1) q) 0 hpos
      have hlen : npArgmin (List.replicate (k + 1) q) < k + 1 := by
        have hr := npArgmin_lt_length (List.replicate (k + 1) q) (by simp)
        simpa using hr
      rw [List.getD_eq_getElem?_getD, List.getD_eq_getElem?_getD,
        List.getElem?_replicate, List.getElem?_replicate,
        if_pos hlen, if_pos (Nat.succ_pos k)] at hlt
      exact absurd hlt (lt_irrefl q)

/-- C10: with more than 5 taxa and a sampling-method string outside d, tc,
le, rl (after lowercasing), the sampled quintet set is empty and the run
does not fail: every candidate's total score is 0 and the first generated
rooted candidate is written as the answer. -/
theorem main_model_unknown_sampling_method {A B : Type} (m : QRModules A B)
    (taxa : List Nat) (u : UTree) (sm c : String) (cfs : Bool)
    (h5 : 5 < taxa.length)
    (hd : (pyLower sm) ≠ "d") (htc : (pyLower sm) ≠ "tc")
    (hle : (pyLower sm) ≠ "le") (hrl : (pyLower sm) ≠ "rl") :
    ∃ res, main_model m taxa u sm c cfs = .ok res ∧
      res.sample_quintet_taxa = [] ∧
      res.r_score = List.replicate res.rooted_candidates.length 0 ∧
      res.min_idx = 0 ∧
      res.out_tree = (u.edges.map u.reroot).headI := by
  have hsel : select_sample m.tcSample m.leSample m.rlSample (pyLower sm) taxa u
      = [] := by
    rw [select_sample, if_neg (by push_neg; exact ⟨by omega, hd⟩),
      if_neg htc, if_neg hle, if_neg hrl]
  rw [main_model, if_neg (by omega)]
  rw [hsel]
  have hscore : (List.range (get_all_rooted_trees u).length).map
      (fun i => (List.range (List.length ([] : List (List Nat)))).foldl
        (fun acc j =>
          acc + ((([] : List (List Nat)).map (fun q =>
            compute_cost_rooted_quintets m.cost m.u2r_mapping
              m.idx_2_unlabeled_topology m.rooted_quintet_indices
              (m.gene_tree_distribution q) (m.get_quintet_unrooted_index q)
              (pyLower c))).getD j []).getD (m.get_quintet_rooted_index i j) 0)
        0) = List.replicate (get_all_rooted_trees u).length (0 : ℚ) := by
    simp only [List.length_nil, List.range_zero, List.foldl_nil, List.map_nil]
    rw [List.map_const', List.length_range]
  refine ⟨_, rfl, rfl, ?_, ?_, ?_⟩
  · dsimp only
    rw [hscore]
  · dsimp only
    rw [hscore, npArgmin_replicate_zero]
  · dsimp only
    rw [hscore, npArgmin_replicate_zero]
    exact get_all_rooted_trees_head u

/-- Fixed 6-taxon unrooted tree used to instantiate universally quantified
theorems at a concrete input. -/
def demoU6 : UTree :=
  ⟨.leaf 0, .node (.leaf 1) (.leaf 2), .node (.node (.leaf 3) (.leaf 4)) (.leaf 5)⟩

theorem main_model_unknown_sampling_method_witness :
    (5 < ([0, 1, 2, 3, 4, 5] : List Nat).length ∧
      ((pyLower "xy") ≠ "d" ∧ (pyLower "xy") ≠ "tc" ∧ (pyLower "xy") ≠ "le" ∧
        (pyLower "xy") ≠ "rl")) ∧
    (∃ res, main_model zeroModules [0, 1, 2, 3, 4, 5] demoU6 "xy" "d" false =
        .ok res ∧
      res.sample_quintet_taxa = [] ∧
      res.r_score = List.replicate res.rooted_candidates.length 0 ∧
      res.min_idx = 0 ∧
      res.out_tree = (demoU6.edges.map demoU6.reroot).headI) :=
  ⟨⟨by decide, by decide, by decide, by decide, by decide⟩,
    main_model_unknown_sampling_method zeroModules [0, 1, 2, 3, 4, 5] demoU6
      "xy" "d" false (by decide) (by decide) (by decide) (by decide)
      (by decide)⟩

/-! Uniform-cost runs: all candidate scores equal. -/

theorem getD_zero_of_all_zero {l : List ℚ} (h : ∀ x ∈ l, x = 0) (k : Nat) :
    l.getD k 0 = 0 := by
  rw [List.getD_eq_getElem?_getD]
  cases hk : l[k]? with
  | none => rfl
  | some x => exact h x (List.getElem?_mem hk)

theorem getD_mem_or_default {α : Type} (l : List α) (j : Nat) (d : α) :
    l.getD j d ∈ l ∨ l.getD j d = d := by
  rw [List.getD_eq_getElem?_getD]
  cases hk : l[j]? with
  | none => exact Or.inr rfl
  | some x => exact Or.inl (List.getElem?_mem hk)

theorem foldl_add_zero_terms (g : Nat → ℚ) (l : List Nat)
    (h : ∀ j ∈ l, g j = 0) :
    l.foldl (fun acc j => acc + g j) 0 = 0 := by
  have haux : ∀ (l' : List Nat) (a : ℚ), (∀ j ∈ l', g j = 0) →
      l'.foldl (fun acc j => acc + g j) a = a := by
    intro l'
    induction l' with
    | nil => intro a _; rfl
    | cons x xs ih =>
        intro a h'
        rw [List.foldl_cons, h' x (List.mem_cons_self x xs), add_zero]
        exact ih a (fun j hj => h' j (List.mem_cons_of_mem x hj))
  exact haux l 0 h

theorem foldl_max_replicate_zero (k : Nat) :
    (List.replicate k (0 : ℚ)).foldl max 0 = 0 := by
  induction k with
  | zero => rfl
  | succ m ih =>
      rw [List.replicate_succ, List.foldl_cons, max_self]
      exact ih

theorem npmax_replicate_zero (n : Nat) :
    npmax (List.replicate n (0 : ℚ)) = 0 := by
  cases n with
  | zero => rfl
  | succ k =>
      rw [List.replicate_succ, npmax]
      exact foldl_max_replicate_zero k

theorem confidence_scores_replicate_zero (n : Nat) :
    confidence_scores (List.replicate n (0 : ℚ)) = List.replicate n 0 := by
  rw [confidence_scores, List.map_replicate]
  simp [npmax_replicate_zero]

/-- With the identically-zero cost function every candidate's accumulated
score is 0, so the run ends with a uniform score vector. -/
theorem main_model_zeroModules_uniform (taxa : List Nat) (u : UTree)
    (sm c : String) (cfs : Bool) (h5 : 5 ≤ taxa.length) :
    ∃ res, main_model zeroModules taxa u sm c cfs = .ok res ∧
      res.rooted_candidates = get_all_rooted_trees u ∧
      res.r_score = List.replicate (get_all_rooted_trees u).length 0 ∧
      res.ranking = if cfs then
        some (ranking_output res.rooted_candidates res.r_score) else none := by
  rw [main_model, if_neg (not_lt.2 h5)]
  refine ⟨_, rfl, rfl, ?_, rfl⟩
  dsimp only
  have hzero : ∀ i, (List.range (select_sample zeroModules.tcSample
      zeroModules.leSample zeroModules.rlSample (pyLower sm) taxa u).length).foldl
        (fun acc j =>
          acc + (((select_sample zeroModules.tcSample zeroModules.leSample
            zeroModules.rlSample (pyLower sm) taxa u).map (fun q =>
              compute_cost_rooted_quintets zeroModules.cost
                zeroModules.u2r_mapping zeroModules.idx_2_unlabeled_topology
                zeroModules.rooted_quintet_indices
                (zeroModules.gene_tree_distribution q)
                (zeroModules.get_quintet_unrooted_index q)
                (pyLower c))).getD j []).getD
            (zeroModules.get_quintet_rooted_index i j) 0)
        0 = 0 := by
    intro i
    apply foldl_add_zero_terms
    intro j _
    set qs := (select_sample zeroModules.tcSample zeroModules.leSample
      zeroModules.rlSample (pyLower sm) taxa u).map (fun q =>
        compute_cost_rooted_quintets zeroModules.cost zeroModules.u2r_mapping
          zeroModules.idx_2_unlabeled_topology zeroModules.rooted_quintet_indices
          (zeroModules.gene_tree_distribution q)
          (zeroModules.get_quintet_unrooted_index q) (pyLower c)) with hqs
    rcases getD_mem_or_default qs j [] with hmem | hdef
    · apply getD_zero_of_all_zero
      intro x hx
      rw [hqs] at hmem
      obtain ⟨q, -, hq⟩ := List.mem_map.1 hmem
      rw [← hq] at hx
      rw [compute_cost_rooted_quintets] at hx
      obtain ⟨k, -, hk⟩ := List.mem_map.1 hx
      exact hk.symm
    · rw [hdef]
      rfl
  calc (List.range (get_all_rooted_trees u).length).map _
      = (List.range (get_all_rooted_trees u).length).map (fun _ => (0 : ℚ)) :=
        List.map_congr_left (fun i _ => hzero i)
    _ = List.replicate (get_all_rooted_trees u).length 0 := by
        rw [List.map_const', List.length_range]

/-- C2: on a run where every candidate ends with equal total cost, the
confidence normalization denominator sum(max cost - cost) is exactly 0:
the normalization divides by zero (numpy evaluates 0/0 to NaN with a
warning) and no score equals 1/|candidates| — the total-division model
yields 0 for every entry, and 1/7 is not 0. -/
theorem confidence_uniform_costs_divide_by_zero :
    ∃ res, main_model zeroModules [0, 1, 2, 3, 4] demoU5 "d" "d" true = .ok res ∧
      res.r_score.length = 7 ∧
      (res.r_score.map (fun y => npmax res.r_score - y)).sum = 0 ∧
      confidence_scores res.r_score = List.replicate 7 0 ∧
      (1 : ℚ) / 7 ≠ 0 := by
  obtain ⟨res, hrun, hcand, hscore, hrank⟩ :=
    main_model_zeroModules_uniform [0, 1, 2, 3, 4] demoU5 "d" "d" true
      (by decide)
  have hlen : (get_all_rooted_trees demoU5).length = 7 := by decide
  rw [hlen] at hscore
  refine ⟨res, hrun, ?_, ?_, ?_, by norm_num⟩
  · rw [hscore, List.length_replicate]
  · rw [hscore]
    simp only [List.map_replicate, npmax_replicate_zero, sub_zero,
      List.sum_replicate, smul_zero]
  · rw [hscore, confidence_scores_replicate_zero]

/-! Confidence scores and the ranking file. -/

theorem getD_map_lt {α β : Type} (f : α → β) (l : List α) (d : β) (d0 : α)
    {i : Nat} (hi : i < l.length) :
    (l.map f).getD i d = f (l.getD i d0) := by
  rw [List.getD_eq_getElem _ d0 hi,
    List.getD_eq_getElem _ d (by simpa using hi)]
  simp

theorem confidence_denom_pos {r : List ℚ} (hnu : ∃ x ∈ r, x ≠ npmax r) :
    0 < (r.map (fun y => npmax r - y)).sum := by
  obtain ⟨x, hx, hxne⟩ := hnu
  have hnonneg : ∀ z ∈ r.map (fun y => npmax r - y), 0 ≤ z := by
    intro z hz
    obtain ⟨y, hy, rfl⟩ := List.mem_map.1 hz
    exact sub_nonneg.2 (le_npmax_of_mem y hy)
  have hmem : npmax r - x ∈ r.map (fun y => npmax r - y) :=
    List.mem_map.2 ⟨x, hx, rfl⟩
  have hxlt : 0 < npmax r - x :=
    sub_pos.2 (lt_of_le_of_ne (le_npmax_of_mem x hx) hxne)
  exact lt_of_lt_of_le hxlt (List.single_le_sum hnonneg _ hmem)

theorem confidence_scores_sum {r : List ℚ} (hnu : ∃ x ∈ r, x ≠ npmax r) :
    (confidence_scores r).sum = 1 := by
  have hS := confidence_denom_pos hnu
  rw [confidence_scores]
  have hdiv : r.map (fun x => (npmax r - x) / (r.map (fun y => npmax r - y)).sum)
      = r.map (fun x => (npmax r - x) * ((r.map (fun y => npmax r - y)).sum)⁻¹) := by
    simp [div_eq_mul_inv]
  rw [hdiv, List.sum_map_mul_right, ← div_eq_mul_inv, div_self hS.ne']

/-- C8 (amended): when confidence scores are requested and not every
candidate has the same total cost, candidate i receives confidence
(max cost - cost i) / sum over j of (max cost - cost j), the confidence
scores over the candidate set sum to 1, and candidates are emitted to the
ranking file in ascending order of total cost with confidence scores
non-increasing along it. -/
theorem ranking_confidence_properties (cands : List RTree) (r : List ℚ)
    (hnu : ∃ x ∈ r, x ≠ npmax r) :
    (∀ i < r.length,
      (confidence_scores r).getD i 0 =
        (npmax r - r.getD i 0) / (r.map (fun y => npmax r - y)).sum) ∧
    (confidence_scores r).sum = 1 ∧
    List.Pairwise (fun i j => r.getD i 0 ≤ r.getD j 0) (npArgsort r) ∧
    List.Pairwise (fun p q : RTree × ℚ => q.2 ≤ p.2)
      (ranking_output cands r) := by
  have hS := confidence_denom_pos hnu
  refine ⟨?_, confidence_scores_sum hnu, npArgsort_sorted r, ?_⟩
  · intro i hi
    rw [confidence_scores, getD_map_lt _ _ _ 0 hi]
  · rw [ranking_output, List.pairwise_map]
    refine List.Pairwise.imp_of_mem ?_ (npArgsort_sorted r)
    intro i j hi hj hij
    have hi' : i < r.length := by
      have hmem := (npArgsort_perm_range r).mem_iff.1 hi
      simpa using hmem
    have hj' : j < r.length := by
      have hmem := (npArgsort_perm_range r).mem_iff.1 hj
      simpa using hmem
    dsimp only
    rw [confidence_scores, getD_map_lt _ _ _ 0 hi', getD_map_lt _ _ _ 0 hj']
    exact (div_le_div_iff_of_pos_right hS).2 (sub_le_sub_left hij _)

theorem ranking_confidence_properties_witness :
    (∃ x ∈ ([0, 2, 1] : List ℚ), x ≠ npmax [0, 2, 1]) ∧
    ((∀ i < ([0, 2, 1] : List ℚ).length,
      (confidence_scores [0, 2, 1]).getD i 0 =
        (npmax [0, 2, 1] - ([0, 2, 1] : List ℚ).getD i 0) /
          (([0, 2, 1] : List ℚ).map (fun y => npmax [0, 2, 1] - y)).sum) ∧
    (confidence_scores [0, 2, 1]).sum = 1 ∧
    List.Pairwise
      (fun i j => ([0, 2, 1] : List ℚ).getD i 0 ≤ ([0, 2, 1] : List ℚ).getD j 0)
      (npArgsort [0, 2, 1]) ∧
    List.Pairwise (fun p q : RTree × ℚ => q.2 ≤ p.2)
      (ranking_output [RTree.leaf 0] [0, 2, 1])) :=
  ⟨by decide, ranking_confidence_properties [RTree.leaf 0] [0, 2, 1] (by decide)⟩

/-- C8 counterexample: a run with confidence scores requested in which all
candidates end with equal total cost; the emitted confidence scores do not
sum to 1 (the exact-arithmetic model gives 0; numpy produces NaN from the
0/0 divisions). -/
theorem ranking_confidence_sum_uniform_counterexample :
    ∃ res, main_model zeroModules [0, 1, 2, 3, 4] demoU5 "d" "d" true = .ok res ∧
      res.ranking = some (ranking_output res.rooted_candidates res.r_score) ∧
      (confidence_scores res.r_score).sum = 0 ∧ (0 : ℚ) ≠ 1 := by
  obtain ⟨res, hrun, hcand, hscore, hrank⟩ :=
    main_model_zeroModules_uniform [0, 1, 2, 3, 4] demoU5 "d" "d" true
      (by decide)
  have hlen : (get_all_rooted_trees demoU5).length = 7 := by decide
  rw [hlen] at hscore
  refine ⟨res, hrun, ?_, ?_, by norm_num⟩
  · rw [hrank, if_pos rfl]
  · rw [hscore, confidence_scores_replicate_zero]
    simp

-- sanity examples
example : (RTree.node (.leaf 0) (.leaf 1)).leafSet = {0, 1} := by decide
example :
    symdiff (RTree.node (.leaf 0) (.node (.leaf 1) (.leaf 2)))
      (RTree.node (.node (.leaf 2) (.leaf 1)) (.leaf 0)) = 0 := by decide
example :
    symdiff (RTree.node (.leaf 0) (.node (.leaf 1) (.leaf 2)))
      (RTree.node (.node (.leaf 0) (.leaf 1)) (.leaf 2)) ≠ 0 := by decide
